import Mathlib

/-!
Verification development for `hack/check-image-tags.py`.

The Python script scans a YAML-like document for lines that declare
`*_image_tag` variables with `skopeo list-tags` commands in a trailing
comment, runs each command to enumerate available tags, picks the latest
tag by version sorting, and classifies each declaration as
up-to-date / update-available / unknown / error.

We embed the core shallowly: Python strings become `String` / `List Char`,
subprocess execution becomes an explicit outcome datatype, dicts become
structures, and Python's stable `sorted(..., key=parse_version, reverse=True)`
becomes `List.mergeSort` with the key-descending comparison (Lean's
`mergeSort` is a stable sort, like Python's).
-/

/-- Whitespace characters, matching Python's `str.strip` / regex `\s`
for ASCII input: space, tab, newline, carriage return, vertical tab,
form feed. -/
def isSpaceChar (c : Char) : Bool :=
  c = ' ' || c = '\t' || c = '\n' || c = '\r' || c = '\x0b' || c = '\x0c'

/-- The version-segment separators of `parse_version`'s regexes
`[.\-_]` (dot, dash, underscore). -/
def isSepChar (c : Char) : Bool :=
  c = '.' || c = '-' || c = '_'

/-- Python regex `\w` (ASCII model): letters, digits, underscore. -/
def isWordChar (c : Char) : Bool :=
  c.isAlphanum || c = '_'

/-- The character class `[^"\'#\s]` of the value group in
`parse_image_tag_lines`'s pattern: anything but quotes, `#`, whitespace. -/
def isValueChar (c : Char) : Bool :=
  !(c = '"' || c = '\x27' || c = '#' || isSpaceChar c)

/-- Python `str.strip()` on a character list: drop leading and trailing
whitespace. -/
def trimChars (cs : List Char) : List Char :=
  ((cs.dropWhile isSpaceChar).reverse.dropWhile isSpaceChar).reverse

/-- Python `str.split("\n")`: split a character list on newline characters.
Always returns at least one (possibly empty) piece. -/
def splitLines : List Char → List (List Char)
  | [] => [[]]
  | c :: rest =>
    match splitLines rest with
    | g :: gs => if c = '\n' then [] :: g :: gs else (c :: g) :: gs
    | [] => [[c]]

/-- Python `int(p)` on a run of decimal digit characters. -/
def digitsToNat (ds : List Char) : Nat :=
  ds.foldl (fun n c => n * 10 + (c.toNat - '0'.toNat)) 0

/-- The comparison key produced by `parse_version`: either a tuple of
integers, or the fallback sentinel `(float("inf"), tag)` which carries the
original tag string. -/
inductive VersionKey where
  | numeric (parts : List Nat)
  | fallback (tag : String)
deriving DecidableEq

/-- Boolean lexicographic strict order on lists over a linear order:
position-by-position comparison, a strict prefix is smaller.  This is
exactly Python's `<` on tuples (of ints) and on strings (of code points). -/
def lexLt [LinearOrder α] : List α → List α → Bool
  | _, [] => false
  | [], _ :: _ => true
  | a :: as, b :: bs => if a < b then true else if b < a then false else lexLt as bs

/-- Python's `<` on the tuples returned by `parse_version`.
A numeric tuple `(n, ...)` is always below a fallback `(inf, tag)` because
`n < float("inf")`; two fallbacks tie on `inf` and compare their original
tag strings; two numeric tuples compare lexicographically as int tuples. -/
def vkLt : VersionKey → VersionKey → Bool
  | .numeric a, .numeric b => lexLt a b
  | .numeric _, .fallback _ => true
  | .fallback _, .numeric _ => false
  | .fallback s, .fallback t => lexLt s.data t.data

/-- The prefix-stripping loop at the top of `parse_version`:
`for prefix in ("v", "version-v", "version-"): if cleaned.lower().startswith(prefix): cleaned = cleaned[len(prefix):]; break`.
The check lowercases, the slice is on the original string; at most one
prefix is removed, the first that matches. -/
def cleanTag (tag : String) : String :=
  let low := tag.data.map Char.toLower
  if ['v'].isPrefixOf low then
    String.mk (tag.data.drop 1)
  else if ['v', 'e', 'r', 's', 'i', 'o', 'n', '-', 'v'].isPrefixOf low then
    String.mk (tag.data.drop 9)
  else if ['v', 'e', 'r', 's', 'i', 'o', 'n', '-'].isPrefixOf low then
    String.mk (tag.data.drop 8)
  else tag

/-- The repetition `(?:[.\-_]\d+)*` of `parse_version`'s regex
`^(\d+(?:[.\-_]\d+)*)`, matched greedily after the leading digit run:
each iteration consumes one separator and a nonempty digit run.
`fuel` only bounds the recursion; every iteration consumes at least two
characters, so `fuel = cs.length` never runs out. -/
def versionRunAux (fuel : Nat) (cs : List Char) : List (List Char) :=
  match fuel with
  | 0 => []
  | fuel + 1 =>
    match cs with
    | [] => []
    | c :: rest =>
      if isSepChar c then
        let ds := rest.takeWhile Char.isDigit
        if ds.isEmpty then []
        else ds :: versionRunAux fuel (rest.dropWhile Char.isDigit)
      else []

/-- `parse_version`: strip a recognized prefix, greedily match the leading
run `\d+(?:[.\-_]\d+)*`, split it on separators and convert every segment
to an integer (the segments are nonempty digit runs, so Python's
`int(p)` never raises there); if no leading digit exists, return the
fallback sentinel `(float("inf"), tag)` carrying the original tag. -/
def parse_version (tag : String) : VersionKey :=
  let cleaned := cleanTag tag
  let cs := cleaned.data
  let ds := cs.takeWhile Char.isDigit
  if ds.isEmpty then
    .fallback tag
  else
    .numeric ((ds :: versionRunAux cs.length (cs.dropWhile Char.isDigit)).map digitsToNat)

/-- The element comparison realized by Python's stable
`sorted(tags, key=parse_version, reverse=True)`: `a` may be placed before
`b` exactly when `parse_version a` is not strictly below `parse_version b`. -/
def sortLE (a b : String) : Bool :=
  !vkLt (parse_version a) (parse_version b)

/-- `get_latest_tag`: `None` on an empty list, otherwise the first element
of the tags sorted by parsed version, highest first (stable descending
sort).  The `current_value` parameter is accepted and ignored, as in the
source. -/
def get_latest_tag (tags : List String) (current_value : String) : Option String :=
  if tags.isEmpty then none
  else (tags.mergeSort sortLE).head?

/-- `compare_versions`: exact string equality decides the status. -/
def compare_versions (current latest : String) : String :=
  if current = latest then ("up-to-date") else ("update-available")

/-- The result of executing the enumeration subprocess, as observed by
`run_skopeo_command`: a completed process with exit code and stdout, a
timeout (`subprocess.TimeoutExpired`), or any other execution fault
(the bare `except Exception`). -/
inductive ProcOutcome where
  | completed (returncode : Int) (stdout : String)
  | timedOut
  | raisedError
deriving DecidableEq

/-- The tag-list construction of `run_skopeo_command` on a successful run:
`[tag.strip() for tag in result.stdout.strip().split("\n") if tag.strip()]`
— strip stdout, split on newlines, strip every line, keep nonempty ones. -/
def tagLines (stdout : String) : List String :=
  (((splitLines (trimChars stdout.data)).map trimChars).filter
    (fun l => l ≠ [])).map String.mk

/-- `run_skopeo_command`: `None` on nonzero exit, on timeout, and on any
other execution fault; on exit status 0, the filtered stripped lines of
stdout.  No exception escapes: the function is total. -/
def run_skopeo_command : ProcOutcome → Option (List String)
  | .completed returncode stdout =>
    if returncode ≠ 0 then none else some (tagLines stdout)
  | .timedOut => none
  | .raisedError => none

/-- The status computation in `main` for a successfully enumerated tag list:
`status = compare_versions(current, latest) if latest else "unknown"`.
Python truthiness: `latest` counts as absent both when it is `None` and
when it is the empty string. -/
def resolve_status (tags : List String) (current : String) : String :=
  match get_latest_tag tags current with
  | none => "unknown"
  | some latest => if latest = "" then ("unknown") else compare_versions current latest

/-- The per-item status of `main`: `"error"` when `run_skopeo_command`
returned `None`, otherwise the resolver's classification. -/
def item_status (o : ProcOutcome) (current : String) : String :=
  match run_skopeo_command o with
  | none => "error"
  | some tags => resolve_status tags current

/-- The per-item `latest_value` field of `main`'s result record. -/
def item_latest (o : ProcOutcome) (current : String) : Option String :=
  match run_skopeo_command o with
  | none => none
  | some tags => get_latest_tag tags current

/-- The `all_tags` field of `main`'s result record:
`tags[-10:] if tags else []` — the last ten entries (all of them when
fewer than ten), in original order. -/
def all_tags_field (tags : List String) : List String :=
  if tags.isEmpty then [] else tags.drop (tags.length - 10)

/-- One extracted declaration, the dict built by `parse_image_tag_lines`
(field `variableName` stands for the dict key `variable`, a reserved word
in Lean). -/
structure ImageTagEntry where
  variableName : String
  current_value : String
  skopeo_command : String
  line_number : Nat
deriving DecidableEq

/-- `re.match` of the extractor pattern
`^(\w+_image_tag):\s*["\']?([^"\'#\s]+)["\']?\s*#\s*(skopeo\s+list-tags\s+.+)$`
against `line.strip()`, returning the three groups on success.

The pattern is deterministic on stripped input, so the backtracking
engine is embedded as a straight-line matcher:
* group 1 must be the maximal leading `\w` run (a `:` must follow the
  group and every character inside the run is a word character, so no
  shorter match is possible), at least 11 characters long and ending in
  `_image_tag`;
* the optional quotes and the value run admit no useful backtracking
  because the value class excludes quotes, `#` and whitespace;
* inside group 3, `\s+` runs admit no useful backtracking because the
  literals `list-tags` and the final `.+` start at non-whitespace
  positions on a stripped line (a stripped line never ends in
  whitespace). -/
def matchLine (line : String) : Option (String × String × String) :=
  let cs := trimChars line.data
  let w := cs.takeWhile isWordChar
  let rest1 := cs.dropWhile isWordChar
  if w.length < 11 then none
  else if w.drop (w.length - 10) ≠ ['_', 'i', 'm', 'a', 'g', 'e', '_', 't', 'a', 'g'] then none
  else
    match rest1 with
    | ':' :: rest2 =>
      let rest3 := rest2.dropWhile isSpaceChar
      let rest4 :=
        match rest3 with
        | c :: r => if c = '"' || c = '\x27' then r else rest3
        | [] => rest3
      let val := rest4.takeWhile isValueChar
      let rest5 := rest4.dropWhile isValueChar
      if val = [] then none
      else
        let rest6 :=
          match rest5 with
          | c :: r => if c = '"' || c = '\x27' then r else rest5
          | [] => rest5
        let rest7 := rest6.dropWhile isSpaceChar
        match rest7 with
        | '#' :: rest8 =>
          let rest9 := rest8.dropWhile isSpaceChar
          if ['s', 'k', 'o', 'p', 'e', 'o'].isPrefixOf rest9 then
            let rest10 := rest9.drop 6
            let ws4 := rest10.takeWhile isSpaceChar
            let rest11 := rest10.dropWhile isSpaceChar
            if ws4 = [] then none
            else if ['l', 'i', 's', 't', '-', 't', 'a', 'g', 's'].isPrefixOf rest11 then
              let rest12 := rest11.drop 9
              let ws5 := rest12.takeWhile isSpaceChar
              let rest13 := rest12.dropWhile isSpaceChar
              if ws5 = [] then none
              else if rest13 = [] then none
              else some (String.mk w, String.mk val, String.mk rest9)
            else none
          else none
        | _ => none
    | _ => none

/-- The line loop of `parse_image_tag_lines`, carrying the 1-based line
counter of `enumerate(f, 1)`: every matching line appends one entry, every
other line is skipped. -/
def parse_image_tag_lines_aux (n : Nat) : List String → List ImageTagEntry
  | [] => []
  | line :: rest =>
    match matchLine line with
    | some (v, val, cmd) =>
      ⟨v, val, cmd, n⟩ :: parse_image_tag_lines_aux (n + 1) rest
    | none => parse_image_tag_lines_aux (n + 1) rest

/-- `parse_image_tag_lines` on the document's lines. -/
def parse_image_tag_lines (lines : List String) : List ImageTagEntry :=
  parse_image_tag_lines_aux 1 lines

/-- Spec rendering of the Resolver's selection rule (§4.4): a tag is
maximal when no tag of the list has a strictly larger VersionKey. -/
def isMaxTag (tags : List String) (t : String) : Bool :=
  tags.all (fun u => !vkLt (parse_version t) (parse_version u))

/-- Spec rendering of the Resolver's selection rule (§4.4): the first
element of a stable descending sort is the earliest input element whose
VersionKey is maximal; absent for the empty list. -/
def latestSpec (tags : List String) : Option String :=
  (tags.filter (isMaxTag tags)).head?

/-- Decides whether a VersionKey is the fallback sentinel. -/
def isFallbackKey : VersionKey → Bool
  | .fallback _ => true
  | .numeric _ => false

theorem lexLt_nil_right [LinearOrder α] (l : List α) : lexLt l [] = false := by
  cases l <;> rfl

theorem lexLt_irrefl [LinearOrder α] : ∀ l : List α, lexLt l l = false
  | [] => rfl
  | a :: as => by simp [lexLt, lexLt_irrefl as]

theorem lexLt_cons_iff [LinearOrder α] (a b : α) (as bs : List α) :
    lexLt (a :: as) (b :: bs) = true ↔ a < b ∨ (a = b ∧ lexLt as bs = true) := by
  simp only [lexLt]
  rcases lt_trichotomy a b with h | h | h
  · simp [h]
  · subst h
    simp [lt_irrefl]
  · simp [asymm h, h, h.ne']

theorem lexLt_trans [LinearOrder α] :
    ∀ {a b c : List α}, lexLt a b = true → lexLt b c = true → lexLt a c = true := by
  intro a
  induction a with
  | nil =>
    intro b c h1 h2
    cases c with
    | nil => rw [lexLt_nil_right] at h2; exact absurd h2 (by simp)
    | cons c0 cs => rfl
  | cons a0 as ih =>
    intro b c h1 h2
    cases b with
    | nil => rw [lexLt_nil_right] at h1; exact absurd h1 (by simp)
    | cons b0 bs =>
      cases c with
      | nil => rw [lexLt_nil_right] at h2; exact absurd h2 (by simp)
      | cons c0 cs =>
        rw [lexLt_cons_iff] at h1 h2 ⊢
        rcases h1 with h1 | ⟨rfl, h1⟩
        · rcases h2 with h2 | ⟨rfl, h2⟩
          · exact Or.inl (lt_trans h1 h2)
          · exact Or.inl h1
        · rcases h2 with h2 | ⟨rfl, h2⟩
          · exact Or.inl h2
          · exact Or.inr ⟨rfl, ih h1 h2⟩

theorem lexLt_connex [LinearOrder α] :
    ∀ {a b : List α}, lexLt a b = false → lexLt b a = false → a = b := by
  intro a
  induction a with
  | nil =>
    intro b h1 _
    cases b with
    | nil => rfl
    | cons b0 bs => exact absurd h1 (by simp [lexLt])
  | cons a0 as ih =>
    intro b h1 h2
    cases b with
    | nil => exact absurd h2 (by simp [lexLt])
    | cons b0 bs =>
      have n1 : ¬ (a0 < b0 ∨ (a0 = b0 ∧ lexLt as bs = true)) := by
        rw [← lexLt_cons_iff]
        simp [h1]
      have n2 : ¬ (b0 < a0 ∨ (b0 = a0 ∧ lexLt bs as = true)) := by
        rw [← lexLt_cons_iff]
        simp [h2]
      push_neg at n1 n2
      have he : a0 = b0 := le_antisymm n2.1 n1.1
      have hs : as = bs := ih (by simpa using n1.2 he) (by simpa using n2.2 he.symm)
      rw [he, hs]

theorem lexLt_iff_lex [LinearOrder α] :
    ∀ {a b : List α}, lexLt a b = true ↔ List.Lex (· < ·) a b := by
  intro a
  induction a with
  | nil =>
    intro b
    cases b with
    | nil => simp [lexLt, List.Lex.not_nil_right]
    | cons b0 bs => simpa [lexLt] using List.Lex.nil
  | cons a0 as ih =>
    intro b
    cases b with
    | nil => simp [lexLt_nil_right, List.Lex.not_nil_right]
    | cons b0 bs =>
      rw [lexLt_cons_iff]
      constructor
      · rintro (h | ⟨rfl, h⟩)
        · exact List.Lex.rel h
        · exact List.Lex.cons (ih.mp h)
      · intro h
        cases h with
        | rel h => exact Or.inl h
        | cons h => exact Or.inr ⟨rfl, ih.mpr h⟩

theorem vkLt_irrefl (k : VersionKey) : vkLt k k = false := by
  cases k <;> simp [vkLt, lexLt_irrefl]

theorem vkLt_trans :
    ∀ {a b c : VersionKey}, vkLt a b = true → vkLt b c = true → vkLt a c = true
  | .numeric _, .numeric _, .numeric _, h1, h2 => lexLt_trans h1 h2
  | .numeric _, .numeric _, .fallback _, _, _ => rfl
  | .numeric _, .fallback _, .numeric _, _, h2 => absurd h2 (by simp [vkLt])
  | .numeric _, .fallback _, .fallback _, _, _ => rfl
  | .fallback _, .numeric _, _, h1, _ => absurd h1 (by simp [vkLt])
  | .fallback _, .fallback _, .numeric _, _, h2 => absurd h2 (by simp [vkLt])
  | .fallback _, .fallback _, .fallback _, h1, h2 => lexLt_trans h1 h2

theorem vkLt_connex :
    ∀ {a b : VersionKey}, vkLt a b = false → vkLt b a = false → a = b := by
  intro a b h1 h2
  cases a with
  | numeric x =>
    cases b with
    | numeric y => rw [lexLt_connex (a := x) (b := y) h1 h2]
    | fallback t => exact absurd h1 (by simp [vkLt])
  | fallback s =>
    cases b with
    | numeric y => exact absurd h2 (by simp [vkLt])
    | fallback t =>
      have : s.data = t.data := lexLt_connex h1 h2
      cases s with
      | mk sd =>
        cases t with
        | mk td =>
          simp only [] at this
          rw [show sd = td from this]

theorem sortLE_eq_false_iff (a b : String) :
    sortLE a b = false ↔ vkLt (parse_version a) (parse_version b) = true := by
  simp [sortLE]

theorem sortLE_trans : ∀ (a b c : String), sortLE a b → sortLE b c → sortLE a c := by
  intro a b c h1 h2
  simp only [sortLE, Bool.not_eq_true'] at h1 h2 ⊢
  by_contra hac
  have hac' : vkLt (parse_version a) (parse_version c) = true := by
    simpa using hac
  by_cases hba : vkLt (parse_version b) (parse_version a) = true
  · exact absurd (vkLt_trans hba hac') (by simp [h2])
  · have : parse_version a = parse_version b :=
      vkLt_connex h1 (by simpa using hba)
    rw [this] at hac'
    exact absurd hac' (by simp [h2])

theorem sortLE_total : ∀ (a b : String), sortLE a b || sortLE b a := by
  intro a b
  simp only [sortLE]
  by_contra h
  simp only [Bool.or_eq_true, Bool.not_eq_true', not_or, Bool.not_eq_false] at h
  exact absurd (vkLt_trans h.1 h.2) (by simp [vkLt_irrefl])

theorem isMaxTag_iff {tags : List String} {t : String} :
    isMaxTag tags t = true ↔
      ∀ u ∈ tags, vkLt (parse_version t) (parse_version u) = false := by
  simp [isMaxTag]

/-- Stable descending sort puts the earliest maximal-key element first:
`get_latest_tag` agrees with the spec's selection rule on every input. -/
theorem get_latest_eq_spec (tags : List String) (c : String) :
    get_latest_tag tags c = latestSpec tags := by
  by_cases he : tags = []
  · subst he; rfl
  · have hemp : tags.isEmpty = false := by simpa [List.isEmpty_iff] using he
    have hperm : List.Perm (tags.mergeSort sortLE) tags := List.mergeSort_perm tags sortLE
    have hsorted := @List.sorted_mergeSort String sortLE sortLE_trans sortLE_total tags
    obtain ⟨h, t, hst⟩ : ∃ h t, tags.mergeSort sortLE = h :: t := by
      cases hm : tags.mergeSort sortLE with
      | nil =>
        rw [hm] at hperm
        exact absurd hperm.symm.eq_nil he
      | cons x xs => exact ⟨x, xs, rfl⟩
    have hmax : isMaxTag tags h = true := by
      rw [isMaxTag_iff]
      intro u hu
      have humem : u ∈ tags.mergeSort sortLE := List.mem_mergeSort.mpr hu
      rw [hst] at humem hsorted
      rcases List.mem_cons.mp humem with rfl | humem
      · exact vkLt_irrefl _
      · have := (List.pairwise_cons.mp hsorted).1 u humem
        simpa [sortLE, Bool.not_eq_true'] using this
    have hsub : List.Sublist (tags.filter (isMaxTag tags)) (tags.mergeSort sortLE) := by
      apply List.sublist_mergeSort sortLE_trans sortLE_total
      · apply List.pairwise_of_forall_mem_list
        intro x hx y hy
        have hxm := (List.mem_filter.mp hx).2
        have hym := (List.mem_filter.mp hy).1
        have hxy := isMaxTag_iff.mp hxm y hym
        simp [sortLE, hxy]
      · exact List.filter_sublist tags
    have hself : (tags.filter (isMaxTag tags)).filter (isMaxTag tags)
        = tags.filter (isMaxTag tags) :=
      List.filter_eq_self.mpr fun a ha => (List.mem_filter.mp ha).2
    have hlen : (tags.filter (isMaxTag tags)).length
        = ((tags.mergeSort sortLE).filter (isMaxTag tags)).length := by
      rw [← List.countP_eq_length_filter, ← List.countP_eq_length_filter]
      exact (hperm.countP_eq _).symm
    have hfeq : tags.filter (isMaxTag tags)
        = (tags.mergeSort sortLE).filter (isMaxTag tags) := by
      have h1 := hsub.filter (isMaxTag tags)
      rw [hself] at h1
      exact h1.eq_of_length hlen
    have hPfilter : (tags.mergeSort sortLE).filter (isMaxTag tags)
        = h :: t.filter (isMaxTag tags) := by
      rw [hst]
      simp [List.filter_cons, hmax]
    calc get_latest_tag tags c = (tags.mergeSort sortLE).head? := by
          simp [get_latest_tag, hemp]
      _ = some h := by rw [hst]; rfl
      _ = (tags.filter (isMaxTag tags)).head? := by rw [hfeq, hPfilter]; rfl
      _ = latestSpec tags := rfl

theorem get_latest_none_iff (tags : List String) (c : String) :
    get_latest_tag tags c = none ↔ tags = [] := by
  unfold get_latest_tag
  cases hemp : tags.isEmpty with
  | true =>
    rw [if_pos (by simp [hemp])]
    simp only [List.isEmpty_iff] at hemp
    simp [hemp]
  | false =>
    have hne : tags ≠ [] := by simpa [List.isEmpty_iff] using hemp
    rw [if_neg (by simp [hemp])]
    cases hm : tags.mergeSort sortLE with
    | nil =>
      have := List.mergeSort_perm tags sortLE
      rw [hm] at this
      exact absurd this.symm.eq_nil hne
    | cons x xs => simp [hne]

theorem get_latest_mem {tags : List String} {c l : String}
    (h : get_latest_tag tags c = some l) : l ∈ tags := by
  unfold get_latest_tag at h
  cases hemp : tags.isEmpty with
  | true => rw [if_pos (by simp [hemp])] at h; exact absurd h (by simp)
  | false =>
    rw [if_neg (by simp [hemp])] at h
    cases hm : tags.mergeSort sortLE with
    | nil => rw [hm] at h; exact absurd h (by simp)
    | cons x xs =>
      rw [hm] at h
      have hx : x = l := by simpa using h
      subst hx
      exact List.mem_mergeSort.mp (hm ▸ List.mem_cons_self x xs)

theorem get_latest_isMax {tags : List String} {c l : String}
    (h : get_latest_tag tags c = some l) : isMaxTag tags l = true := by
  rw [get_latest_eq_spec] at h
  unfold latestSpec at h
  cases hm : tags.filter (isMaxTag tags) with
  | nil => rw [hm] at h; exact absurd h (by simp)
  | cons x xs =>
    rw [hm] at h
    have hx : x = l := by simpa using h
    subst hx
    exact (List.mem_filter.mp (hm ▸ List.mem_cons_self x xs)).2

theorem run_some_shape {o : ProcOutcome} {tags : List String}
    (h : run_skopeo_command o = some tags) :
    ∃ out, o = .completed 0 out ∧ tags = tagLines out := by
  cases o with
  | completed rc out =>
    by_cases hrc : rc = 0
    · subst hrc
      refine ⟨out, rfl, ?_⟩
      simpa [run_skopeo_command] using h.symm
    · rw [show run_skopeo_command (.completed rc out) = none by
        simp [run_skopeo_command, hrc]] at h
      exact absurd h (by simp)
  | timedOut => exact absurd h (by simp [run_skopeo_command])
  | raisedError => exact absurd h (by simp [run_skopeo_command])

theorem tagLines_ne_empty {out t : String} (h : t ∈ tagLines out) : t ≠ "" := by
  unfold tagLines at h
  rcases List.mem_map.mp h with ⟨l, hl, rfl⟩
  have hlne : l ≠ [] := by
    have := List.mem_filter.mp hl
    simpa using this.2
  intro hcon
  exact hlne (by simpa using congrArg String.data hcon)

theorem tagLines_sublist (out : String) :
    List.Sublist (tagLines out)
      (((splitLines (trimChars out.data)).map trimChars).map String.mk) :=
  (List.filter_sublist _).map String.mk

theorem head_v_isPrefixOf {p low : List Char} (h : ('v' :: p).isPrefixOf low = true) :
    ['v'].isPrefixOf low = true := by
  cases low with
  | nil => simp [List.isPrefixOf] at h
  | cons c cs =>
    simp only [List.isPrefixOf, Bool.and_eq_true, beq_iff_eq] at h ⊢
    exact ⟨h.1, trivial⟩

theorem cleanTag_v {t : String} (h : ['v'].isPrefixOf (t.data.map Char.toLower) = true) :
    cleanTag t = String.mk (t.data.drop 1) := by
  unfold cleanTag
  simp [h]

theorem parse_aux_length :
    ∀ (lines : List String) (n : Nat),
      (parse_image_tag_lines_aux n lines).length
        = lines.countP (fun l => (matchLine l).isSome) := by
  intro lines
  induction lines with
  | nil => intro n; rfl
  | cons line rest ih =>
    intro n
    simp only [parse_image_tag_lines_aux]
    cases hm : matchLine line with
    | none => simp [List.countP_cons, hm, ih]
    | some v =>
      rcases v with ⟨a, b, cmd⟩
      simp [List.countP_cons, hm, ih]

theorem parse_aux_ge :
    ∀ (lines : List String) (n : Nat) (e : ImageTagEntry),
      e ∈ parse_image_tag_lines_aux n lines → n ≤ e.line_number := by
  intro lines
  induction lines with
  | nil => intro n e he; simp [parse_image_tag_lines_aux] at he
  | cons line rest ih =>
    intro n e he
    simp only [parse_image_tag_lines_aux] at he
    cases hm : matchLine line with
    | none =>
      rw [hm] at he
      exact Nat.le_of_succ_le (ih (n + 1) e he)
    | some v =>
      rcases v with ⟨a, b, cmd⟩
      rw [hm] at he
      rcases List.mem_cons.mp he with rfl | he'
      · exact Nat.le_refl n
      · exact Nat.le_of_succ_le (ih (n + 1) e he')

theorem parse_aux_pairwise :
    ∀ (lines : List String) (n : Nat),
      ((parse_image_tag_lines_aux n lines).map ImageTagEntry.line_number).Pairwise (· < ·) := by
  intro lines
  induction lines with
  | nil => intro n; simp [parse_image_tag_lines_aux]
  | cons line rest ih =>
    intro n
    simp only [parse_image_tag_lines_aux]
    cases hm : matchLine line with
    | none => exact ih (n + 1)
    | some v =>
      rcases v with ⟨a, b, cmd⟩
      simp only [List.map_cons]
      rw [List.pairwise_cons]
      refine ⟨?_, ih (n + 1)⟩
      intro x hx
      rcases List.mem_map.mp hx with ⟨e, he, rfl⟩
      exact Nat.lt_of_succ_le (parse_aux_ge rest (n + 1) e he)

theorem parse_aux_get :
    ∀ (lines : List String) (n : Nat) (e : ImageTagEntry),
      e ∈ parse_image_tag_lines_aux n lines →
      ∃ line, lines[e.line_number - n]? = some line ∧
        matchLine line = some (e.variableName, e.current_value, e.skopeo_command) := by
  intro lines
  induction lines with
  | nil => intro n e he; simp [parse_image_tag_lines_aux] at he
  | cons line rest ih =>
    intro n e he
    simp only [parse_image_tag_lines_aux] at he
    cases hm : matchLine line with
    | none =>
      rw [hm] at he
      obtain ⟨l', h1, h2⟩ := ih (n + 1) e he
      have hge := parse_aux_ge rest (n + 1) e he
      refine ⟨l', ?_, h2⟩
      have hidx : e.line_number - n = (e.line_number - (n + 1)) + 1 := by omega
      rw [hidx]
      simpa using h1
    | some v =>
      rcases v with ⟨a, b, cmd⟩
      rw [hm] at he
      rcases List.mem_cons.mp he with rfl | he'
      · exact ⟨line, by simp, hm⟩
      · obtain ⟨l', h1, h2⟩ := ih (n + 1) e he'
        have hge := parse_aux_ge rest (n + 1) e he'
        refine ⟨l', ?_, h2⟩
        have hidx : e.line_number - n = (e.line_number - (n + 1)) + 1 := by omega
        rw [hidx]
        simpa using h1

/-- C1: a tag with no leading numeric run after prefix stripping gets the
fallback sentinel; the sentinel ranks strictly above every numeric
VersionKey and two sentinels are ordered by their original strings;
consequently whenever the tag list holds an unparseable tag, the selected
latest tag is unparseable, and for `["1.2", "RELEASE.2023-12-23T07-19-11Z"]`
the latest tag is `"RELEASE.2023-12-23T07-19-11Z"`. -/
theorem claim_C1 :
    (∀ (parts : List Nat) (s : String), vkLt (.numeric parts) (.fallback s) = true)
  ∧ (∀ s t : String,
      vkLt (.fallback s) (.fallback t) = true ↔ List.Lex (· < ·) s.data t.data)
  ∧ (∀ t : String, (cleanTag t).data.takeWhile Char.isDigit = [] →
      parse_version t = .fallback t)
  ∧ (∀ (tags : List String) (c u l : String), u ∈ tags →
      isFallbackKey (parse_version u) = true →
      get_latest_tag tags c = some l → isFallbackKey (parse_version l) = true)
  ∧ (∀ c : String, get_latest_tag ["1.2", "RELEASE.2023-12-23T07-19-11Z"] c
      = some ("RELEASE.2023-12-23T07-19-11Z")) := by
  refine ⟨fun _ _ => rfl, fun s t => lexLt_iff_lex, ?_, ?_, ?_⟩
  · intro t h
    simp [parse_version, h]
  · intro tags c u l hu hfu hl
    have hmax := isMaxTag_iff.mp (get_latest_isMax hl) u hu
    cases hpu : parse_version u with
    | numeric pu => rw [hpu] at hfu; exact absurd hfu (by simp [isFallbackKey])
    | fallback su =>
      cases hpl : parse_version l with
      | numeric pl =>
        rw [hpl, hpu] at hmax
        exact absurd hmax (by simp [vkLt])
      | fallback sl => simp [isFallbackKey]
  · intro c
    rw [get_latest_eq_spec]
    decide

theorem claim_C1_witness :
    isFallbackKey (parse_version ("RELEASE.2023-12-23T07-19-11Z")) = true :=
  claim_C1.2.2.2.1 ["1.2", "RELEASE.2023-12-23T07-19-11Z"] "1.2"
    ("RELEASE.2023-12-23T07-19-11Z") ("RELEASE.2023-12-23T07-19-11Z")
    (by decide) (by decide) (claim_C1.2.2.2.2 "1.2")

/-- C2: for every tag list the Resolver's latest tag is the first element
of the stable descending sort by VersionKey — equivalently the earliest
input element with maximal key — and it is absent exactly for the empty
list. -/
theorem claim_C2 (tags : List String) (c : String) :
    get_latest_tag tags c = latestSpec tags
  ∧ (get_latest_tag tags c = none ↔ tags = []) :=
  ⟨get_latest_eq_spec tags c, get_latest_none_iff tags c⟩

/-- C4: on two tags that both parse to numeric VersionKeys, the order is
exactly position-by-position integer comparison of the segment lists
(`List.Lex (· < ·)`, under which a strict prefix is lesser and no
zero-padding occurs); in particular `versionKey("16.9") < versionKey("16.11")`. -/
theorem claim_C4 :
    (∀ (a b : String) (ka kb : List Nat), parse_version a = .numeric ka →
      parse_version b = .numeric kb →
      (vkLt (parse_version a) (parse_version b) = true ↔ List.Lex (· < ·) ka kb))
  ∧ vkLt (parse_version ("16.9")) (parse_version ("16.11")) = true := by
  constructor
  · intro a b ka kb ha hb
    rw [ha, hb]
    exact lexLt_iff_lex
  · decide

theorem claim_C4_witness :
    vkLt (parse_version ("16.9")) (parse_version ("16.11")) = true
      ↔ List.Lex (· < ·) [16, 9] [16, 11] :=
  claim_C4.1 ("16.9") ("16.11") [16, 9] [16, 11] (by decide) (by decide)

/-- C5: at most one recognized prefix is stripped, `"v"` being tried
first, so `versionKey("v3.6.5") = versionKey("3.6.5")`, and every tag
beginning with `"version-"` loses only its leading `"v"` (the longer
prefixes never apply because `"v"` matches first). -/
theorem claim_C5 :
    (∀ t : String, ['v'].isPrefixOf (t.data.map Char.toLower) = true →
      cleanTag t = String.mk (t.data.drop 1))
  ∧ (∀ t : String,
      (['v', 'e', 'r', 's', 'i', 'o', 'n', '-']).isPrefixOf (t.data.map Char.toLower) = true →
      cleanTag t = String.mk (t.data.drop 1))
  ∧ parse_version ("v3.6.5") = parse_version ("3.6.5") :=
  ⟨fun _ h => cleanTag_v h,
   fun _ h => cleanTag_v (head_v_isPrefixOf h),
   by decide⟩

theorem claim_C5_witness :
    cleanTag ("version-3.13") = String.mk (("version-3.13" : String).data.drop 1) :=
  claim_C5.2.1 ("version-3.13") (by decide)

/-- C8: the `all_tags` field keeps exactly the last ten entries of the
raw enumeration output in original order — a suffix of length
`min (length) 10`, the whole list when it has at most ten entries. -/
theorem claim_C8 (tags : List String) :
    (∃ pre, pre ++ all_tags_field tags = tags)
  ∧ (all_tags_field tags).length = min tags.length 10
  ∧ (tags.length ≤ 10 → all_tags_field tags = tags) := by
  by_cases h : tags = []
  · subst h
    exact ⟨⟨[], rfl⟩, by simp [all_tags_field], fun _ => by simp [all_tags_field]⟩
  · have hemp : tags.isEmpty = false := by simpa [List.isEmpty_iff] using h
    rw [show all_tags_field tags = tags.drop (tags.length - 10) by
      simp [all_tags_field, hemp]]
    refine ⟨⟨tags.take (tags.length - 10), List.take_append_drop _ _⟩, ?_, ?_⟩
    · rw [List.length_drop]
      omega
    · intro hle
      have h0 : tags.length - 10 = 0 := by omega
      rw [h0, List.drop_zero]

theorem claim_C8_witness :
    all_tags_field ["a", "b"] = ["a", "b"] :=
  (claim_C8 ["a", "b"]).2.2 (by decide)

/-- C9: prefix recognition is case-insensitive — whenever the lowercased
tag starts with `"v"`, `"version-v"` or `"version-"`, a strip occurs
(the leading character is removed and the result is strictly shorter);
in particular `versionKey("V3.6.5") = versionKey("3.6.5")`. -/
theorem claim_C9 :
    (∀ (t : String) (p : List Char),
      p ∈ [['v'], ['v', 'e', 'r', 's', 'i', 'o', 'n', '-', 'v'],
        ['v', 'e', 'r', 's', 'i', 'o', 'n', '-']] →
      p.isPrefixOf (t.data.map Char.toLower) = true →
      cleanTag t = String.mk (t.data.drop 1) ∧ (cleanTag t).length < t.length)
  ∧ parse_version ("V3.6.5") = parse_version ("3.6.5") := by
  constructor
  · intro t p hp hpre
    have hv : ['v'].isPrefixOf (t.data.map Char.toLower) = true := by
      simp only [List.mem_cons, List.not_mem_nil, or_false] at hp
      rcases hp with rfl | rfl | rfl
      · exact hpre
      · exact head_v_isPrefixOf hpre
      · exact head_v_isPrefixOf hpre
    have hclean := cleanTag_v hv
    refine ⟨hclean, ?_⟩
    have hne : t.data ≠ [] := by
      intro h0
      rw [h0] at hv
      simp [List.isPrefixOf] at hv
    rw [hclean]
    show (t.data.drop 1).length < t.data.length
    rw [List.length_drop]
    have := List.length_pos.mpr hne
    omega
  · decide

theorem claim_C9_witness :
    cleanTag ("V3.6.5") = String.mk (("V3.6.5" : String).data.drop 1)
  ∧ (cleanTag ("V3.6.5")).length < ("V3.6.5" : String).length :=
  claim_C9.1 ("V3.6.5") ['v'] (by decide) (by decide)

/-- C10: the latest-tag selection never depends on the current value —
`get_latest_tag` accepts the current value and ignores it, so any two
current values yield the same selected tag. -/
theorem claim_C10 (tags : List String) (c1 c2 : String) :
    get_latest_tag tags c1 = get_latest_tag tags c2 := rfl

/-- C6: the Runner signals failure (no tags) on nonzero exit status, on
timeout and on any other execution fault, and being a total function no
exception escapes it; on exit status 0 the tag list is the ordered
sequence of nonempty trimmed lines of stdout — every returned tag is
nonempty and the list is an in-order sublist of the trimmed lines. -/
theorem claim_C6 :
    (run_skopeo_command .timedOut = none)
  ∧ (run_skopeo_command .raisedError = none)
  ∧ (∀ (rc : Int) (out : String), rc ≠ 0 → run_skopeo_command (.completed rc out) = none)
  ∧ (∀ out : String, run_skopeo_command (.completed 0 out) = some (tagLines out))
  ∧ (∀ (out t : String), t ∈ tagLines out → t ≠ "")
  ∧ (∀ out : String, List.Sublist (tagLines out)
      (((splitLines (trimChars out.data)).map trimChars).map String.mk)) := by
  refine ⟨rfl, rfl, ?_, fun out => by simp [run_skopeo_command], ?_, ?_⟩
  · intro rc out hrc
    simp [run_skopeo_command, hrc]
  · intro out t ht
    exact tagLines_ne_empty ht
  · intro out
    exact tagLines_sublist out

theorem claim_C6_witness :
    run_skopeo_command (.completed 1 "2.0") = none ∧ ("a" : String) ≠ "" :=
  ⟨claim_C6.2.2.1 1 ("2.0") (by decide),
   claim_C6.2.2.2.2.1 (" a \n\nb\n") ("a") (by decide)⟩

/-- C3: the per-item status of `main` is exactly one of four values:
`error` iff enumeration failed (and then no latest tag is computed),
`unknown` iff enumeration succeeded with an empty list, `up-to-date` iff
a latest tag exists and equals the current value byte for byte, and
`update-available` iff a latest tag exists and differs from it. -/
theorem claim_C3 (o : ProcOutcome) (c : String) :
    (item_status o c = "error" ↔ run_skopeo_command o = none)
  ∧ (item_status o c = "unknown" ↔ run_skopeo_command o = some [])
  ∧ (item_status o c = "up-to-date" ↔
      ∃ tags, run_skopeo_command o = some tags ∧ get_latest_tag tags c = some c)
  ∧ (item_status o c = "update-available" ↔
      ∃ tags l, run_skopeo_command o = some tags ∧ get_latest_tag tags c = some l ∧ l ≠ c)
  ∧ (run_skopeo_command o = none → item_latest o c = none)
  ∧ (item_status o c = "error" ∨ item_status o c = "unknown" ∨
      item_status o c = "up-to-date" ∨ item_status o c = "update-available") := by
  cases hrun : run_skopeo_command o with
  | none =>
    have hstat : item_status o c = "error" := by simp [item_status, hrun]
    rw [hstat]
    refine ⟨by simp, by decide, ?_, ?_, ?_, Or.inl rfl⟩
    · constructor
      · intro h; exact absurd h (by decide)
      · rintro ⟨tags, htags, -⟩; exact absurd htags (by simp)
    · constructor
      · intro h; exact absurd h (by decide)
      · rintro ⟨tags, l, htags, -, -⟩; exact absurd htags (by simp)
    · intro _; simp [item_latest, hrun]
  | some tags =>
    obtain ⟨out, ho, htags⟩ := run_some_shape hrun
    have hstat : item_status o c = resolve_status tags c := by simp [item_status, hrun]
    rw [hstat]
    cases hl : get_latest_tag tags c with
    | none =>
      have hnil : tags = [] := (get_latest_none_iff tags c).mp hl
      have hres : resolve_status tags c = "unknown" := by simp [resolve_status, hl]
      rw [hres]
      refine ⟨?_, ?_, ?_, ?_, ?_, Or.inr (Or.inl rfl)⟩
      · constructor
        · intro h; exact absurd h (by decide)
        · intro h; exact absurd h (by simp)
      · exact ⟨fun _ => by rw [hnil], fun _ => rfl⟩
      · constructor
        · intro h; exact absurd h (by decide)
        · rintro ⟨tags', htags', hlat⟩
          obtain rfl : tags = tags' := Option.some.inj htags'
          exact absurd (hl.symm.trans hlat) (by simp)
      · constructor
        · intro h; exact absurd h (by decide)
        · rintro ⟨tags', l, htags', hlat, -⟩
          obtain rfl : tags = tags' := Option.some.inj htags'
          exact absurd (hl.symm.trans hlat) (by simp)
      · intro h; exact absurd h (by simp)
    | some l =>
      have hlne : l ≠ "" := tagLines_ne_empty (htags ▸ get_latest_mem hl)
      have hres : resolve_status tags c = compare_versions c l := by
        simp [resolve_status, hl, hlne]
      rw [hres]
      by_cases hcl : c = l
      · subst hcl
        have hcv : compare_versions c c = "up-to-date" := by simp [compare_versions]
        rw [hcv]
        refine ⟨?_, ?_, ?_, ?_, ?_, Or.inr (Or.inr (Or.inl rfl))⟩
        · constructor
          · intro h; exact absurd h (by decide)
          · intro h; exact absurd h (by simp)
        · constructor
          · intro h; exact absurd h (by decide)
          · intro h
            obtain rfl : tags = [] := Option.some.inj h
            have hnone := (get_latest_none_iff [] c).mpr rfl
            exact absurd (hnone.symm.trans hl) (by simp)
        · exact ⟨fun _ => ⟨tags, rfl, hl⟩, fun _ => rfl⟩
        · constructor
          · intro h; exact absurd h (by decide)
          · rintro ⟨tags', l', htags', hlat, hne⟩
            obtain rfl : tags = tags' := Option.some.inj htags'
            have hlc : c = l' := Option.some.inj (hl.symm.trans hlat)
            exact absurd hlc.symm hne
        · intro h; exact absurd h (by simp)
      · have hcv : compare_versions c l = "update-available" := by
          simp [compare_versions, hcl]
        rw [hcv]
        refine ⟨?_, ?_, ?_, ?_, ?_, Or.inr (Or.inr (Or.inr rfl))⟩
        · constructor
          · intro h; exact absurd h (by decide)
          · intro h; exact absurd h (by simp)
        · constructor
          · intro h; exact absurd h (by decide)
          · intro h
            obtain rfl : tags = [] := Option.some.inj h
            have hnone := (get_latest_none_iff [] c).mpr rfl
            exact absurd (hnone.symm.trans hl) (by simp)
        · constructor
          · intro h; exact absurd h (by decide)
          · rintro ⟨tags', htags', hlat⟩
            obtain rfl : tags = tags' := Option.some.inj htags'
            have hlc : l = c := Option.some.inj (hl.symm.trans hlat)
            exact absurd hlc.symm hcl
        · exact ⟨fun _ => ⟨tags, l, rfl, hl, fun h => hcl h.symm⟩, fun _ => rfl⟩
        · intro h; exact absurd h (by simp)

/-- C7: the Extractor emits exactly one TagSource per line matching the
pattern (identifier ending in `_image_tag`, colon, optionally quoted
value without whitespace, quote or `#`, then a comment that starts with
the literal `skopeo list-tags`), non-matching lines are silently skipped
and document order is preserved; the example line with a piped `jq`
filter yields exactly one entry carrying the whole command, and the line
with a different comment yields none. -/
theorem claim_C7 :
    (parse_image_tag_lines
        ["foo_image_tag: \"1.2.3\"  # skopeo list-tags docker://x | jq -r \x27.Tags[]\x27"]
      = [⟨"foo_image_tag", "1.2.3",
          "skopeo list-tags docker://x | jq -r \x27.Tags[]\x27", 1⟩])
  ∧ (matchLine ("foo_image_tag: \"1.2.3\"  # some other comment") = none)
  ∧ (∀ lines : List String, (parse_image_tag_lines lines).length
      = lines.countP (fun l => (matchLine l).isSome))
  ∧ (∀ lines : List String,
      ((parse_image_tag_lines lines).map ImageTagEntry.line_number).Pairwise (· < ·))
  ∧ (∀ (lines : List String) (e : ImageTagEntry), e ∈ parse_image_tag_lines lines →
      ∃ line, lines[e.line_number - 1]? = some line ∧
        matchLine line = some (e.variableName, e.current_value, e.skopeo_command)) :=
  ⟨by decide, by decide,
   fun lines => parse_aux_length lines 1,
   fun lines => parse_aux_pairwise lines 1,
   fun lines e he => parse_aux_get lines 1 e he⟩

theorem claim_C7_witness :
    ∃ line,
      (["foo_image_tag: \"1.2.3\"  # skopeo list-tags docker://x | jq -r \x27.Tags[]\x27"])[
        (1 : Nat) - 1]? = some line ∧
      matchLine line = some ("foo_image_tag", "1.2.3",
        "skopeo list-tags docker://x | jq -r \x27.Tags[]\x27") :=
  claim_C7.2.2.2.2
    ["foo_image_tag: \"1.2.3\"  # skopeo list-tags docker://x | jq -r \x27.Tags[]\x27"]
    ⟨"foo_image_tag", "1.2.3", "skopeo list-tags docker://x | jq -r \x27.Tags[]\x27", 1⟩
    (by decide)

theorem claim_C3_witness :
    item_latest ProcOutcome.timedOut ("1.0") = none :=
  (claim_C3 ProcOutcome.timedOut ("1.0")).2.2.2.2.1 (by rfl)
